import Mathlib

/-!
Verification development for the boilerplate-context MCP server
(`src/boilerplates/mcp`): a shallow embedding, over `List Char` strings,
of the repository-cache layer (`repoTools` in `src/utils/repository.ts`),
the search handler and the other MCP handlers (`mcpServer.ts`), and the
Express route table (`app.ts`).

JavaScript strings are modelled as `List Char`; `String.prototype.split`,
`join`, `toLowerCase`, `includes` and `Array.prototype.slice` are embedded
as the executable functions below.
-/

namespace BoilerplateMcp

/-- JS strings, modelled as lists of characters. -/
abbrev Str := List Char

/-- `s.toLowerCase()`, modelled character-wise with `Char.toLower`. -/
def lowerStr (s : Str) : Str := s.map Char.toLower

/-- `s.toUpperCase()`, modelled character-wise with `Char.toUpper`. -/
def upperStr (s : Str) : Str := s.map Char.toUpper

/-- `needle.isPrefix-of haystack` as a Bool: used to implement `includes`. -/
def leadsWith : Str → Str → Bool
  | [], _ => true
  | _ :: _, [] => false
  | a :: as, b :: bs => a = b && leadsWith as bs

/-- `hay.includes(needle)` (JS substring containment; empty needle always
matches). First argument is the needle, second the haystack. -/
def containsStr (needle : Str) : Str → Bool
  | [] => leadsWith needle []
  | c :: t => leadsWith needle (c :: t) || containsStr needle t

/-- `content.split('\n')`: splitting an empty string yields one empty
line, and a trailing newline yields a trailing empty line, exactly as in
JavaScript. -/
def splitNl : Str → List Str
  | [] => [[]]
  | c :: cs =>
    if c = '\n' then [] :: splitNl cs
    else
      match splitNl cs with
      | [] => [[c]]
      | l :: ls => (c :: l) :: ls

/-- `array.join(sep)` for an array of strings. -/
def arrJoin (sep : Str) : List Str → Str
  | [] => []
  | [x] => x
  | x :: xs => x ++ sep ++ arrJoin sep xs

/-- `lines.join('\n')`. -/
def joinNl (ls : List Str) : Str := arrJoin ['\n'] ls

/-- The match test of the `search_best_practices` handler
(`line.toLowerCase().includes(queryLower)`). -/
def lineMatches (q line : Str) : Bool := containsStr (lowerStr q) (lowerStr line)

/-- The context block built for a match at 0-based index `idx`
(`lines.slice(Math.max(0, index - 2), Math.min(lines.length, index + 3)).join('\n')`).
`Math.max(0, idx - 2)` is realized by truncated `Nat` subtraction. -/
def contextBlock (lines : List Str) (idx : Nat) : Str :=
  joinNl ((lines.take (min lines.length (idx + 3))).drop (idx - 2))

/-- The core of the `search_best_practices` handler (mcpServer.ts lines
193–206): split the document on newlines, and for each line whose
lowercased form contains the lowercased query, record the 1-based line
number together with the clipped context block. -/
def search (doc q : Str) : List (Nat × Str) :=
  let lines := splitNl doc
  (List.range lines.length).filterMap fun idx =>
    if lineMatches q (lines.getD idx []) then
      some (idx + 1, contextBlock lines idx)
    else none

/-- The context window described by the specification: up to 2 lines
before the match (clipped at the start), the matching line itself, and up
to 2 lines after (clipped at the end). -/
def specWindow (lines : List Str) (i : Nat) : List Str :=
  ((lines.take i).drop (i - 2)) ++ (lines.getD i []) :: ((lines.drop (i + 1)).take 2)

theorem containsStr_nil (h : Str) : containsStr [] h = true := by
  cases h <;> simp [containsStr, leadsWith]

theorem leadsWith_iff (n : Str) : ∀ h : Str, leadsWith n h = true ↔ n <+: h := by
  induction n with
  | nil => intro h; simp [leadsWith, List.nil_prefix]
  | cons a as ih =>
    intro h
    cases h with
    | nil => simp [leadsWith]
    | cons b bs =>
      simp only [leadsWith, Bool.and_eq_true, decide_eq_true_eq, ih,
        List.cons_prefix_cons]

theorem containsStr_iff (n : Str) : ∀ h : Str, containsStr n h = true ↔ n <:+: h := by
  intro h
  induction h with
  | nil =>
    cases n with
    | nil => simp [containsStr, leadsWith, List.infix_refl]
    | cons a as => simp [containsStr, leadsWith]
  | cons c t ih =>
    simp [containsStr, leadsWith_iff, ih, List.infix_cons_iff]

theorem map_fst_searchAux (l : List Nat) (p : Nat → Bool) (g : Nat → Str) :
    ((l.filterMap fun i => if p i then some (i + 1, g i) else none).map Prod.fst)
      = (l.filter p).map (· + 1) := by
  induction l with
  | nil => rfl
  | cons a l ih =>
    by_cases hpa : p a <;>
      simp [List.filterMap_cons, List.filter_cons, hpa, ih]

theorem mem_searchAux {l : List Nat} {p : Nat → Bool} {g : Nat → Str} {m : Nat} {c : Str} :
    ((m, c) ∈ l.filterMap fun i => if p i then some (i + 1, g i) else none)
      ↔ ∃ i ∈ l, p i = true ∧ m = i + 1 ∧ c = g i := by
  simp only [List.mem_filterMap]
  constructor
  · rintro ⟨i, hi, hfi⟩
    by_cases hpi : p i
    · simp only [hpi, if_true, Option.some.injEq, Prod.mk.injEq] at hfi
      exact ⟨i, hi, hpi, hfi.1.symm, hfi.2.symm⟩
    · simp [hpi] at hfi
  · rintro ⟨i, hi, hpi, rfl, rfl⟩
    exact ⟨i, hi, by simp [hpi]⟩

theorem search_eq (doc q : Str) :
    search doc q
      = (List.range (splitNl doc).length).filterMap fun idx =>
          if lineMatches q ((splitNl doc).getD idx []) then
            some (idx + 1, contextBlock (splitNl doc) idx)
          else none := rfl

theorem slice_eq_specWindow (lines : List Str) (i : Nat) (h : i < lines.length) :
    (lines.take (min lines.length (i + 3))).drop (i - 2) = specWindow lines i := by
  have ht : lines.take (min lines.length (i + 3)) = lines.take (i + 3) := by
    rw [Nat.min_comm, ← List.take_take, List.take_length]
  have hle : i - 2 ≤ (lines.take i).length := by
    simp only [List.length_take]
    omega
  have htake3 : ∀ (x : Str) (l : List Str), (x :: l).take 3 = x :: l.take 2 :=
    fun _ _ => rfl
  rw [ht, List.take_add, List.drop_append_of_le_length hle,
    List.drop_eq_getElem_cons h, htake3]
  simp only [specWindow, List.getD_eq_getElem _ _ h]

theorem splitNl_ne_nil (xs : Str) : splitNl xs ≠ [] := by
  cases xs with
  | nil => simp [splitNl]
  | cons c cs =>
    simp only [splitNl]
    split
    · simp
    · split <;> simp

theorem splitNl_append_newline (xs : Str) :
    splitNl (xs ++ ['\n']) = splitNl xs ++ [[]] := by
  induction xs with
  | nil => simp [splitNl]
  | cons c cs ih =>
    by_cases hc : c = '\n'
    · simp [splitNl, hc, ih]
    · obtain ⟨l, ls, hls⟩ : ∃ l ls, splitNl cs = l :: ls := by
        cases h : splitNl cs with
        | nil => exact absurd h (splitNl_ne_nil cs)
        | cons l ls => exact ⟨l, ls, rfl⟩
      simp [splitNl, hc, ih, hls]

theorem arrJoin_append_singleton (sep : Str) :
    ∀ B : List Str, ∀ x : Str, B ≠ [] →
      arrJoin sep (B ++ [x]) = arrJoin sep B ++ sep ++ x := by
  intro B
  induction B with
  | nil => intro x hx; exact absurd rfl hx
  | cons b B' ih =>
    intro x _
    cases B' with
    | nil => simp [arrJoin]
    | cons b2 B'' =>
      have hih := ih x (by simp)
      simp only [List.cons_append] at hih ⊢
      simp [arrJoin, hih, List.append_assoc]

/-- The document text of the specification's search test vector. -/
def docGamma : Str := ("alpha\nbeta\nGAMMA\ndelta\n").toList

/-- The query of the specification's search test vector. -/
def gammaQuery : Str := ("gamma").toList

/-- C3: for every document text and query, `search` returns exactly one
result per line whose lowercased form contains the lowercased query as a
substring, carrying the 1-based line number, in ascending line-number
order; each result's context block is the window of up to 2 lines before
and up to 2 lines after the matching line, clipped at the document
boundaries; and the empty query yields one result for every line. -/
theorem search_correct (doc q : Str) :
    ((search doc q).map Prod.fst)
        = ((List.range (splitNl doc).length).filter
            (fun i => lineMatches q ((splitNl doc).getD i []))).map (· + 1) ∧
    ((search doc q).map Prod.fst).Pairwise (· < ·) ∧
    (∀ i, lineMatches q ((splitNl doc).getD i []) = true
        ↔ lowerStr q <:+: lowerStr ((splitNl doc).getD i [])) ∧
    (∀ m c, (m, c) ∈ search doc q →
      ∃ i, i < (splitNl doc).length ∧ m = i + 1 ∧
        lineMatches q ((splitNl doc).getD i []) = true ∧
        c = joinNl (specWindow (splitNl doc) i)) ∧
    (search doc []).length = (splitNl doc).length := by
  refine ⟨?_, ?_, ?_, ?_, ?_⟩
  · rw [search_eq, map_fst_searchAux]
  · rw [search_eq, map_fst_searchAux, List.pairwise_map]
    exact ((List.pairwise_lt_range _).filter _).imp
      fun hab => Nat.add_lt_add_right hab 1
  · intro i
    exact containsStr_iff _ _
  · intro m c hmc
    rw [search_eq, mem_searchAux] at hmc
    obtain ⟨i, hir, hpi, hm, hc⟩ := hmc
    have hilt := List.mem_range.mp hir
    refine ⟨i, hilt, hm, hpi, ?_⟩
    rw [hc]
    simp only [contextBlock]
    rw [slice_eq_specWindow _ _ hilt]
  · have hall : ∀ i ∈ List.range (splitNl doc).length,
        lineMatches [] ((splitNl doc).getD i []) = true := by
      intro i _
      simp [lineMatches, lowerStr, containsStr_nil]
    have hlen : ((search doc []).map Prod.fst).length = (search doc []).length :=
      List.length_map _ _
    rw [← hlen, search_eq, map_fst_searchAux, List.filter_eq_self.mpr hall,
      List.length_map, List.length_range]

/-- Witness for C3 at the concrete test-vector document and query. -/
theorem search_correct_witness :
    ∃ i, i < (splitNl docGamma).length ∧ 3 = i + 1 ∧
      lineMatches gammaQuery ((splitNl docGamma).getD i []) = true ∧
      ("alpha\nbeta\nGAMMA\ndelta\n").toList = joinNl (specWindow (splitNl docGamma) i) :=
  (search_correct docGamma gammaQuery).2.2.2.1 3
    (("alpha\nbeta\nGAMMA\ndelta\n").toList) (by decide)

/-- C4 counterexample: on `"alpha\nbeta\nGAMMA\ndelta\n"` with query
`"gamma"`, the single match at line 3 has a context block that joins
lines 1 through 5 — including the trailing empty line 5 produced by the
final newline — and is therefore not the join of lines 1 through 4. -/
theorem search_gamma_includes_line5 :
    search docGamma gammaQuery
        = [(3, joinNl [("alpha").toList, ("beta").toList, ("GAMMA").toList,
            ("delta").toList, []])] ∧
    joinNl [("alpha").toList, ("beta").toList, ("GAMMA").toList,
        ("delta").toList, []]
      ≠ joinNl [("alpha").toList, ("beta").toList, ("GAMMA").toList,
          ("delta").toList] := by
  decide

/-- C4 amended: on `"alpha\nbeta\nGAMMA\ndelta\n"` with query `"gamma"`,
`search` returns exactly one match, at line 3, whose context block joins
lines 1 through 5 in order, the document having five lines of which the
fifth is the empty line after the final newline. -/
theorem search_gamma_amended :
    (splitNl docGamma).length = 5 ∧
    (splitNl docGamma).getD 4 [] = [] ∧
    search docGamma gammaQuery
      = [(3, joinNl [("alpha").toList, ("beta").toList, ("GAMMA").toList,
          ("delta").toList, []])] := by
  decide

/-- C10: because `search` splits on the newline character, a document
ending in a newline gains a trailing empty line: it has its own line
number, it is reported as a match for the empty query (the last of the
matches), and every context block whose clipped window reaches the end of
the line sequence ends with the newline introducing that empty line. -/
theorem trailing_newline_extra_line (xs q : Str) :
    splitNl (xs ++ ['\n']) = splitNl xs ++ [[]] ∧
    ((search (xs ++ ['\n']) []).map Prod.fst)
        = (List.range ((splitNl xs).length + 1)).map (· + 1) ∧
    ((splitNl xs).length + 1) ∈ (search (xs ++ ['\n']) []).map Prod.fst ∧
    (∀ m c, (m, c) ∈ search (xs ++ ['\n']) q →
      (splitNl (xs ++ ['\n'])).length ≤ m + 2 → c.getLast? = some '\n') := by
  have hsplit := splitNl_append_newline xs
  have hlen : (splitNl (xs ++ ['\n'])).length = (splitNl xs).length + 1 := by
    rw [hsplit]
    simp
  have hmapfst : ((search (xs ++ ['\n']) []).map Prod.fst)
      = (List.range ((splitNl xs).length + 1)).map (· + 1) := by
    have hall : ∀ i ∈ List.range (splitNl (xs ++ ['\n'])).length,
        lineMatches [] ((splitNl (xs ++ ['\n'])).getD i []) = true := by
      intro i _
      simp [lineMatches, lowerStr, containsStr_nil]
    rw [search_eq, map_fst_searchAux, List.filter_eq_self.mpr hall, hlen]
  refine ⟨hsplit, hmapfst, ?_, ?_⟩
  · rw [hmapfst]
    exact List.mem_map.mpr ⟨(splitNl xs).length, List.mem_range.mpr (by omega), rfl⟩
  · intro m c hmc hle
    rw [search_eq, mem_searchAux] at hmc
    obtain ⟨i, hir, hpi, hm, hc⟩ := hmc
    have hilt := List.mem_range.mp hir
    have hia : i < (splitNl xs).length + 1 := hlen ▸ hilt
    have ha1 : 0 < (splitNl xs).length := List.length_pos.mpr (splitNl_ne_nil xs)
    have hminlen : min (splitNl (xs ++ ['\n'])).length (i + 3)
        = (splitNl (xs ++ ['\n'])).length := Nat.min_eq_left (by omega)
    rw [hc]
    simp only [contextBlock, hminlen, List.take_length]
    rw [hsplit, List.drop_append_of_le_length (by omega)]
    have hBne : (splitNl xs).drop (i - 2) ≠ [] := by
      have hld : ((splitNl xs).drop (i - 2)).length = (splitNl xs).length - (i - 2) :=
        List.length_drop _ _
      intro hB
      rw [hB] at hld
      simp only [List.length_nil] at hld
      omega
    simp only [joinNl]
    rw [arrJoin_append_singleton _ _ _ hBne]
    simp [List.getLast?_concat]

/-- Witness for C10 at the document `"a\n"` with the empty query. -/
theorem trailing_newline_extra_line_witness :
    (("a\n").toList).getLast? = some '\n' :=
  (trailing_newline_extra_line (("a").toList) []).2.2.2 2 (("a\n").toList)
    (by decide) (by decide)

/-- Outcome of a git network operation (clone or pull): the resulting
working-copy content on success, or the rejection's error message. -/
inductive GitOutcome where
  | ok : Str → GitOutcome
  | err : Str → GitOutcome
deriving DecidableEq

/-- State of the local working copy: whether `fs.access(dir)` succeeds
(the source's `exists` flag) and the content currently on disk. -/
structure RepoState where
  present : Bool
  content : Str
deriving DecidableEq

/-- `ensureRepo` (repository.ts lines 14–34): when the directory is
absent the repository is cloned, otherwise it is pulled. The surrounding
`catch` block logs the error and then rethrows it (`throw error`). The
result pair is (the thrown-or-ok outcome, the working copy after the
call); a failed git operation leaves the working copy as it was. -/
def ensureRepo (cloneRes pullRes : GitOutcome) (st : RepoState) :
    Except Str Unit × RepoState :=
  if st.present then
    match pullRes with
    | .ok c => (Except.ok (), ⟨true, c⟩)
    | .err e => (Except.error e, st)
  else
    match cloneRes with
    | .ok c => (Except.ok (), ⟨true, c⟩)
    | .err e => (Except.error e, st)

/-- C1 counterexample: with an existing working copy and a failing pull,
`ensureRepo` does not return success — it propagates the pull error. -/
theorem ensure_pull_failure_propagates :
    (ensureRepo (GitOutcome.ok (("fresh").toList))
        (GitOutcome.err (("network down").toList))
        ⟨true, ("cached").toList⟩).1
      = Except.error (("network down").toList) ∧
    (ensureRepo (GitOutcome.ok (("fresh").toList))
        (GitOutcome.err (("network down").toList))
        ⟨true, ("cached").toList⟩).1 ≠ Except.ok () := by
  refine ⟨rfl, ?_⟩
  simp [ensureRepo]

/-- C1 amended: if the working copy already exists and the pull fails,
`ensureRepo` fails with exactly the pull's error (the catch block logs
and rethrows), and the previously cached content remains unchanged and
available to subsequent reads. -/
theorem ensure_pull_failure_keeps_cache (cloneRes : GitOutcome) (e : Str)
    (st : RepoState) (hp : st.present = true) :
    (ensureRepo cloneRes (GitOutcome.err e) st).1 = Except.error e ∧
    (ensureRepo cloneRes (GitOutcome.err e) st).2 = st := by
  simp [ensureRepo, hp]

/-- Witness for the amended C1 at a concrete cached state. -/
theorem ensure_pull_failure_keeps_cache_witness :
    (ensureRepo (GitOutcome.ok (("fresh").toList))
        (GitOutcome.err (("boom").toList)) ⟨true, ("old").toList⟩).1
      = Except.error (("boom").toList) ∧
    (ensureRepo (GitOutcome.ok (("fresh").toList))
        (GitOutcome.err (("boom").toList)) ⟨true, ("old").toList⟩).2
      = ⟨true, ("old").toList⟩ :=
  ensure_pull_failure_keeps_cache (GitOutcome.ok (("fresh").toList))
    (("boom").toList) ⟨true, ("old").toList⟩ rfl

/-- A model file system for `fs.readFile`: maps a path to the file's
content, or to the underlying I/O error message when the file is missing
or unreadable. -/
abbrev FileSys := Str → Except Str Str

/-- `path.join` of two segments. -/
def pjoin (p n : Str) : Str :=
  if p = [] then n else if n = [] then p else p ++ '/' :: n

/-- The fixed guideline file name read by the content reader. -/
def agentsMdName : Str := ("AGENTS.md").toList

/-- The message built by `readAgentsMd`'s catch block:
`Failed to read AGENTS.md for ${platform}: ${error}`. -/
def readFailMsg (platform e : Str) : Str :=
  ("Failed to read AGENTS.md for ").toList ++ platform ++ (": ").toList ++ e

/-- `readAgentsMd` (repository.ts lines 63–71): reads
`dir/boilerplateDir/platform/AGENTS.md` and, on any read error, throws a
new error whose message wraps the underlying one. -/
def readAgentsMd (fs : FileSys) (dir bDir platform : Str) : Except Str Str :=
  match fs (pjoin (pjoin (pjoin dir bDir) platform) agentsMdName) with
  | .ok t => Except.ok t
  | .error e => Except.error (readFailMsg platform e)

/-- C6: when the guideline file is missing or unreadable (the underlying
read yields an I/O error), `readAgentsMd` fails with the wrapping
document-not-found error — which retains the underlying error as a
suffix of its message — and never returns a success. -/
theorem read_agents_md_missing_fails (fs : FileSys) (dir bDir platform e : Str)
    (hm : fs (pjoin (pjoin (pjoin dir bDir) platform) agentsMdName)
      = Except.error e) :
    readAgentsMd fs dir bDir platform = Except.error (readFailMsg platform e) ∧
    (∀ t, readAgentsMd fs dir bDir platform ≠ Except.ok t) ∧
    e <:+ readFailMsg platform e := by
  refine ⟨?_, ?_, ?_⟩
  · simp [readAgentsMd, hm]
  · intro t
    simp [readAgentsMd, hm]
  · have hsuf : e <:+ ((("Failed to read AGENTS.md for ").toList
        ++ platform ++ (": ").toList) ++ e) := List.suffix_append _ _
    simpa [readFailMsg, List.append_assoc] using hsuf

/-- Witness for C6 on a file system where every read fails. -/
theorem read_agents_md_missing_fails_witness :
    readAgentsMd (fun _ => Except.error (("ENOENT").toList)) (("repo").toList)
        (("boilerplates").toList) (("backend").toList)
      = Except.error (readFailMsg (("backend").toList) (("ENOENT").toList)) :=
  (read_agents_md_missing_fails (fun _ => Except.error (("ENOENT").toList))
    (("repo").toList) (("boilerplates").toList) (("backend").toList)
    (("ENOENT").toList) rfl).1

/-- An entry of the model file system walked by `getDirectoryStructure`:
`fs.readdir(dir, { withFileTypes: true })` yields files and directories,
a directory carrying the entries of its subdirectory in storage order. -/
inductive FsEntry where
  | file : Str → FsEntry
  | dir : Str → List FsEntry → FsEntry

/-- The skip test of the traversal (repository.ts line 45):
`entry.name.startsWith('.') || entry.name === 'node_modules'`. -/
def skipName (n : Str) : Bool :=
  n.head? = some '.' || n = ("node_modules").toList

/-- The recursive `traverse` of `getDirectoryStructure` (repository.ts
lines 40–57): walk the entries in storage order; skip hidden names and
the dependency directory; for a directory push `relativePath + '/'` and
then descend into it, for a file push `relativePath`. The source's
`prefix` argument is called `pre` here. -/
def traverseList : List FsEntry → Str → List Str
  | [], _ => []
  | .file n :: es, pre =>
    (if skipName n then [] else [pjoin pre n]) ++ traverseList es pre
  | .dir n ch :: es, pre =>
    (if skipName n then []
     else (pjoin pre n ++ ['/']) :: traverseList ch (pjoin pre n))
      ++ traverseList es pre

/-- `getDirectoryStructure(platform)`: run the traversal on the
platform's subtree with an empty relative prefix. -/
def getDirectoryStructure (platformTree : List FsEntry) : List Str :=
  traverseList platformTree []

/-- Well-formedness of one entry name: nonempty and free of the path
separator (true of any name a real `readdir` returns). -/
def goodName (n : Str) : Bool := !n.isEmpty && !(decide ('/' ∈ n))

/-- Well-formedness of a model directory tree: every entry name is
nonempty and contains no path separator (true of any real `readdir`). -/
def wfList : List FsEntry → Bool
  | [] => true
  | .file n :: es => goodName n && wfList es
  | .dir n ch :: es => goodName n && wfList ch && wfList es

/-- Strip a single trailing separator, if present. -/
def dropSlashSuffix (s : Str) : Str :=
  if s.getLast? = some '/' then s.dropLast else s

/-- The characters after the last separator of a path. -/
def afterLastSlash (s : Str) : Str :=
  ((s.reverse.takeWhile (fun c => c != '/')).reverse)

/-- The name of a listed entry: its last path component, ignoring the
trailing separator that marks directories. -/
def entryName (s : Str) : Str := afterLastSlash (dropSlashSuffix s)

theorem goodName_spec {n : Str} (h : goodName n = true) : n ≠ [] ∧ '/' ∉ n := by
  constructor
  · intro hn
    subst hn
    simp [goodName] at h
  · intro hmem
    simp [goodName, hmem] at h

theorem skipName_false {n : Str} (h : skipName n = false) :
    n.head? ≠ some '.' ∧ n ≠ ("node_modules").toList := by
  simp only [skipName, Bool.or_eq_false_iff, decide_eq_false_iff_not] at h
  exact h

theorem getLast?_ne_slash {n : Str} (hn : '/' ∉ n) : n.getLast? ≠ some '/' := by
  intro heq
  have hmem : '/' ∈ n.getLast? := Option.mem_def.mpr heq
  obtain ⟨h, hx⟩ := List.mem_getLast?_eq_getLast hmem
  exact hn (by rw [hx]; exact List.getLast_mem h)

theorem pjoin_eq (pre n : Str) (hne : n ≠ []) :
    pjoin pre n = if pre = [] then n else pre ++ '/' :: n := by
  simp [pjoin, hne]

theorem getLast?_pjoin (pre n : Str) (hne : n ≠ []) :
    (pjoin pre n).getLast? = n.getLast? := by
  rw [pjoin_eq pre n hne]
  split
  · rfl
  · rw [List.getLast?_append_cons]
    cases n with
    | nil => exact absurd rfl hne
    | cons m rest => exact List.getLast?_cons_cons

theorem takeWhileNe_all (xs : Str) (hx : '/' ∉ xs) :
    xs.takeWhile (fun c => c != '/') = xs := by
  induction xs with
  | nil => rfl
  | cons x t ih =>
    rw [List.mem_cons, not_or] at hx
    have hxt : (x != '/') = true := bne_iff_ne.mpr fun hh => hx.1 hh.symm
    simp [List.takeWhile_cons, hxt, ih hx.2]

theorem takeWhileNe_append (xs rest : Str) (hx : '/' ∉ xs) :
    (xs ++ '/' :: rest).takeWhile (fun c => c != '/') = xs := by
  induction xs with
  | nil => simp [List.takeWhile_cons]
  | cons x t ih =>
    rw [List.mem_cons, not_or] at hx
    have hxt : (x != '/') = true := bne_iff_ne.mpr fun hh => hx.1 hh.symm
    simp [List.takeWhile_cons, hxt, ih hx.2]

theorem afterLastSlash_eq_self {n : Str} (hns : '/' ∉ n) :
    afterLastSlash n = n := by
  unfold afterLastSlash
  rw [takeWhileNe_all _ (by simpa using hns), List.reverse_reverse]

theorem afterLastSlash_append (pre n : Str) (hns : '/' ∉ n) :
    afterLastSlash (pre ++ '/' :: n) = n := by
  unfold afterLastSlash
  rw [List.reverse_append, List.reverse_cons, List.append_assoc,
    List.singleton_append, takeWhileNe_append _ _ (by simpa using hns),
    List.reverse_reverse]

theorem entryName_pjoin (pre n : Str) (hg : goodName n = true) :
    entryName (pjoin pre n) = n := by
  obtain ⟨hne, hns⟩ := goodName_spec hg
  have h1 : (pjoin pre n).getLast? ≠ some '/' := by
    rw [getLast?_pjoin pre n hne]
    exact getLast?_ne_slash hns
  unfold entryName dropSlashSuffix
  rw [if_neg h1, pjoin_eq pre n hne]
  split
  · exact afterLastSlash_eq_self hns
  · exact afterLastSlash_append pre n hns

theorem entryName_pjoin_slash (pre n : Str) (hg : goodName n = true) :
    entryName (pjoin pre n ++ ['/']) = n := by
  obtain ⟨hne, hns⟩ := goodName_spec hg
  unfold entryName dropSlashSuffix
  rw [if_pos (List.getLast?_concat _), List.dropLast_concat, pjoin_eq pre n hne]
  split
  · exact afterLastSlash_eq_self hns
  · exact afterLastSlash_append pre n hns

theorem mem_traverseList_shape :
    ∀ (tree : List FsEntry) (pre : Str), wfList tree = true →
      ∀ s ∈ traverseList tree pre,
        ∃ p m, goodName m = true ∧ skipName m = false ∧
          (s = pjoin p m ∨ s = pjoin p m ++ ['/']) := by
  intro tree pre
  induction tree, pre using traverseList.induct with
  | case1 pre =>
    intro _ s hs
    simp [traverseList] at hs
  | case2 n es pre ih =>
    intro hw s hs
    simp only [wfList, Bool.and_eq_true] at hw
    simp only [traverseList] at hs
    rcases List.mem_append.mp hs with h1 | h2
    · cases hsk : skipName n with
      | true => simp [hsk] at h1
      | false =>
        simp only [hsk, if_neg Bool.false_ne_true, List.mem_singleton] at h1
        exact ⟨pre, n, hw.1, hsk, Or.inl h1⟩
    · exact ih hw.2 s h2
  | case3 n ch es pre ihch ihes =>
    intro hw s hs
    simp only [wfList, Bool.and_eq_true] at hw
    simp only [traverseList] at hs
    rcases List.mem_append.mp hs with h1 | h2
    · cases hsk : skipName n with
      | true => simp [hsk] at h1
      | false =>
        simp only [hsk, if_neg Bool.false_ne_true, List.mem_cons] at h1
        rcases h1 with h1a | h1b
        · exact ⟨pre, n, hw.1.1, hsk, Or.inr h1a⟩
        · exact ihch hw.1.2 s h1b
    · exact ihes hw.2 s h2

theorem dir_children_contiguous :
    ∀ (tree : List FsEntry) (pre n : Str) (ch : List FsEntry),
      FsEntry.dir n ch ∈ tree → skipName n = false →
      ∃ A B, traverseList tree pre
        = A ++ ((pjoin pre n ++ ['/']) :: traverseList ch (pjoin pre n)) ++ B := by
  intro tree
  induction tree with
  | nil =>
    intro pre n ch hmem
    simp at hmem
  | cons e es ih =>
    intro pre n ch hmem hsk
    rcases List.mem_cons.mp hmem with heq | hmem'
    · subst heq
      refine ⟨[], traverseList es pre, ?_⟩
      simp [traverseList, hsk]
    · obtain ⟨A, B, hAB⟩ := ih pre n ch hmem' hsk
      cases e with
      | file m =>
        refine ⟨(if skipName m then [] else [pjoin pre m]) ++ A, B, ?_⟩
        simp only [traverseList, hAB]
        simp [List.append_assoc]
      | dir m ch2 =>
        refine ⟨(if skipName m then []
            else (pjoin pre m ++ ['/']) :: traverseList ch2 (pjoin pre m)) ++ A, B, ?_⟩
        simp only [traverseList, hAB]
        simp [List.append_assoc]

/-- C5: on every well-formed platform tree, the directory listing
contains no entry whose name begins with the hidden-file marker and no
entry named `node_modules`; a file entry never carries the trailing
separator while a directory entry always does; and every unskipped
directory entry is immediately followed by the listing of its own
children before anything else (depth-first preorder). -/
theorem get_directory_structure_correct :
    (∀ (tree : List FsEntry) (pre : Str), wfList tree = true →
      ∀ s ∈ traverseList tree pre,
        (entryName s).head? ≠ some '.' ∧
          entryName s ≠ ("node_modules").toList) ∧
    (∀ (pre n : Str) (es ch : List FsEntry),
      skipName n = false → goodName n = true →
      (traverseList (FsEntry.file n :: es) pre
          = pjoin pre n :: traverseList es pre ∧
        (pjoin pre n).getLast? ≠ some '/') ∧
      (traverseList (FsEntry.dir n ch :: es) pre
          = ((pjoin pre n ++ ['/']) :: traverseList ch (pjoin pre n))
            ++ traverseList es pre ∧
        (pjoin pre n ++ ['/']).getLast? = some '/')) ∧
    (∀ (tree : List FsEntry) (pre n : Str) (ch : List FsEntry),
      FsEntry.dir n ch ∈ tree → skipName n = false →
      ∃ A B, traverseList tree pre
        = A ++ ((pjoin pre n ++ ['/']) :: traverseList ch (pjoin pre n)) ++ B) := by
  refine ⟨?_, ?_, dir_children_contiguous⟩
  · intro tree pre hw s hs
    obtain ⟨p, m, hg, hsk, hor⟩ := mem_traverseList_shape tree pre hw s hs
    have hen : entryName s = m := by
      rcases hor with h | h
      · rw [h]; exact entryName_pjoin p m hg
      · rw [h]; exact entryName_pjoin_slash p m hg
    rw [hen]
    exact skipName_false hsk
  · intro pre n es ch hsk hg
    obtain ⟨hne, hns⟩ := goodName_spec hg
    refine ⟨⟨?_, ?_⟩, ?_, ?_⟩
    · simp [traverseList, hsk]
    · rw [getLast?_pjoin pre n hne]
      exact getLast?_ne_slash hns
    · simp [traverseList, hsk]
    · exact List.getLast?_concat _

/-- Entries of the demo `src` subdirectory. -/
def srcChildren : List FsEntry :=
  [FsEntry.file ("index.ts").toList,
   FsEntry.dir ("node_modules").toList [FsEntry.file ("x.js").toList]]

/-- A small demo platform tree with a hidden file, a subdirectory, a
dependency directory and plain files. -/
def demoTree : List FsEntry :=
  [FsEntry.file (".env").toList,
   FsEntry.dir ("src").toList srcChildren,
   FsEntry.file ("README.md").toList]

/-- Witness for C5 on the demo tree. -/
theorem get_directory_structure_correct_witness :
    ((entryName (("src/").toList)).head? ≠ some '.' ∧
      entryName (("src/").toList) ≠ ("node_modules").toList) ∧
    (traverseList [FsEntry.file (("README.md").toList)] []
        = pjoin [] (("README.md").toList) :: traverseList [] [] ∧
      (pjoin [] (("README.md").toList)).getLast? ≠ some '/') ∧
    (∃ A B, traverseList demoTree []
      = A ++ ((pjoin [] (("src").toList) ++ ['/'])
          :: traverseList srcChildren (pjoin [] (("src").toList))) ++ B) :=
  ⟨get_directory_structure_correct.1 demoTree []
      (by simp only [wfList, demoTree, srcChildren]; decide) (("src/").toList)
      (by simp only [traverseList, demoTree, srcChildren]; decide),
   (get_directory_structure_correct.2.1 [] (("README.md").toList) [] []
      (by decide) (by decide)).1,
   get_directory_structure_correct.2.2 demoTree [] (("src").toList) srcChildren
      (by simp [demoTree]) (by decide)⟩

/-- A repository access performed while handling one request: a call to
`ensureRepo()`, to `readAgentsMd(platform)`, or to
`getDirectoryStructure(platform)`. -/
inductive RepoEvent where
  | ensure : RepoEvent
  | readDoc : Str → RepoEvent
  | readDir : Str → RepoEvent
deriving DecidableEq

/-- The repository content available to the handlers: the guideline
document and the platform subtree of each platform (the success path of
the reads). -/
structure RepoContent where
  doc : Str → Str
  tree : Str → List FsEntry

/-- The per-platform resource read handler (mcpServer.ts lines 152–165):
`await ensureRepo()` and then `await readAgentsMd(platform)`. The pair
is (the text served, the repository accesses in program order). -/
def resourceHandler (env : RepoContent) (platform : Str) :
    Str × List RepoEvent :=
  (env.doc platform, [RepoEvent.ensure, RepoEvent.readDoc platform])

/-- The `get_boilerplate_structure` tool handler (lines 174–184): calls
`getDirectoryStructure(platform)` — and no other repository operation —
then formats the listing under a header. -/
def getBoilerplateStructureHandler (env : RepoContent) (platform : Str) :
    Str × List RepoEvent :=
  (("File structure for ").toList ++ platform ++ (" boilerplate:\n\n").toList
      ++ joinNl (getDirectoryStructure (env.tree platform)),
   [RepoEvent.readDir platform])

/-- One formatted search match (line 204):
`\n--- Line N ---\n` followed by the context block and a newline. -/
def formatMatch (p : Nat × Str) : Str :=
  ("\n--- Line ").toList ++ (Nat.repr p.1).toList ++ (" ---\n").toList
    ++ p.2 ++ ("\n").toList

/-- The `search_best_practices` tool handler (lines 193–218): calls
`readAgentsMd(platform)` — with no preceding `ensureRepo()` — runs the
line search over the document, and formats either the match report or
the no-matches message. -/
def searchBestPracticesHandler (env : RepoContent) (platform q : Str) :
    Str × List RepoEvent :=
  let found := (search (env.doc platform) q).map formatMatch
  (if found.length > 0 then
      ("Found ").toList ++ (Nat.repr found.length).toList
        ++ (" matches for \"").toList ++ q ++ ("\" in ").toList ++ platform
        ++ (" AGENTS.md:\n").toList ++ joinNl found
    else
      ("No matches found for \"").toList ++ q ++ ("\" in ").toList
        ++ platform ++ (" AGENTS.md").toList,
   [RepoEvent.readDoc platform])

/-- The per-platform heading of `get_all_contexts` (line 231):
`## ` then the uppercased platform then ` AGENTS.md` and a blank line. -/
def ctxHeading (platform : Str) : Str :=
  ("## ").toList ++ upperStr platform ++ (" AGENTS.md\n\n").toList

/-- The separator joined between platform blocks (line 239). -/
def hrSep : Str := ("\n\n---\n\n").toList

/-- The `get_all_contexts` tool handler (lines 227–243): maps
`readAgentsMd` over `config.platforms` (one read per platform, result
order = configuration order), prefixes each document with its heading,
and joins the blocks with the horizontal-rule separator. No
`ensureRepo()` is called. -/
def getAllContextsHandler (env : RepoContent) (platforms : List Str) :
    Str × List RepoEvent :=
  (arrJoin hrSep (platforms.map fun p => ctxHeading p ++ env.doc p),
   platforms.map RepoEvent.readDoc)

/-- Does every repository read in a trace have a preceding `ensure`?
The flag records whether an `ensure` has occurred earlier. -/
def readsGuarded : Bool → List RepoEvent → Bool
  | _, [] => true
  | _, RepoEvent.ensure :: ts => readsGuarded true ts
  | seen, RepoEvent.readDoc _ :: ts => seen && readsGuarded seen ts
  | seen, RepoEvent.readDir _ :: ts => seen && readsGuarded seen ts

/-- A demo repository content assignment. -/
def demoEnv : RepoContent :=
  ⟨fun _ => ("line1\nline2").toList, fun _ => demoTree⟩

/-- C2 counterexample: the three tool handlers read repository content
with no preceding `ensureRepo()` in the request — their traces are not
ensure-guarded. -/
theorem tools_read_without_ensure :
    readsGuarded false
        (getBoilerplateStructureHandler demoEnv (("backend").toList)).2 = false ∧
    readsGuarded false
        (searchBestPracticesHandler demoEnv (("backend").toList)
          (("x").toList)).2 = false ∧
    readsGuarded false
        (getAllContextsHandler demoEnv [("backend").toList]).2 = false := by
  decide

/-- C2 corrected: only the per-platform resource reads invoke
`ensureRepo()` before reading; the three tool handlers perform their
repository reads with no `ensure` anywhere in their traces (repository
freshness relies on the eager `ensureRepo` at startup). -/
theorem only_resources_ensure (env : RepoContent) (p q : Str) (ps : List Str) :
    readsGuarded false (resourceHandler env p).2 = true ∧
    RepoEvent.ensure ∉ (getBoilerplateStructureHandler env p).2 ∧
    RepoEvent.ensure ∉ (searchBestPracticesHandler env p q).2 ∧
    RepoEvent.ensure ∉ (getAllContextsHandler env ps).2 := by
  refine ⟨rfl, ?_, ?_, ?_⟩
  · simp [getBoilerplateStructureHandler]
  · simp [searchBestPracticesHandler]
  · simp [getAllContextsHandler]

theorem count_map_readDoc (ps : List Str) (p : Str) :
    (ps.map RepoEvent.readDoc).count (RepoEvent.readDoc p) = ps.count p := by
  induction ps with
  | nil => rfl
  | cons r rs ih =>
    rw [List.map_cons, List.count_cons, List.count_cons, ih]
    by_cases hpr : p = r
    · subst hpr
      simp
    · simp [hpr, beq_iff_eq]

theorem count_nodup_mem (ps : List Str) (p : Str) (hnd : ps.Nodup) (hp : p ∈ ps) :
    ps.count p = 1 := by
  induction ps with
  | nil => cases hp
  | cons r rs ih =>
    rcases List.mem_cons.mp hp with heq | hp'
    · subst heq
      have hr : p ∉ rs := (List.nodup_cons.mp hnd).1
      rw [List.count_cons, List.count_eq_zero.mpr hr]
      simp
    · have hne : p ≠ r := fun hh => (List.nodup_cons.mp hnd).1 (hh ▸ hp')
      rw [List.count_cons, ih (List.nodup_cons.mp hnd).2 hp']
      simp [beq_iff_eq]
      exact fun hh => hne hh.symm

/-- C7: `get_all_contexts` reads the guideline document exactly once per
configured platform (its read trace is exactly the platform list, so
counts agree, and with distinct platforms each is read once), and its
output is the sequence of heading-prefixed documents in configuration
order joined by the horizontal-rule separator, which sits between
consecutive platform blocks. -/
theorem get_all_contexts_correct (env : RepoContent) (ps : List Str) :
    (getAllContextsHandler env ps).2 = ps.map RepoEvent.readDoc ∧
    (∀ p, (getAllContextsHandler env ps).2.count (RepoEvent.readDoc p)
        = ps.count p) ∧
    (ps.Nodup → ∀ p ∈ ps,
      (getAllContextsHandler env ps).2.count (RepoEvent.readDoc p) = 1) ∧
    (getAllContextsHandler env ps).1
      = arrJoin hrSep (ps.map fun p => ctxHeading p ++ env.doc p) ∧
    (∀ p rest, ps = p :: rest → rest ≠ [] →
      (getAllContextsHandler env ps).1
        = ctxHeading p ++ env.doc p ++ hrSep
            ++ (getAllContextsHandler env rest).1) := by
  refine ⟨rfl, count_map_readDoc ps, ?_, rfl, ?_⟩
  · intro hnd p hp
    rw [show (getAllContextsHandler env ps).2 = ps.map RepoEvent.readDoc from rfl,
      count_map_readDoc ps p]
    exact count_nodup_mem ps p hnd hp
  · intro p rest hps hne
    subst hps
    cases rest with
    | nil => exact absurd rfl hne
    | cons r rs =>
      simp only [getAllContextsHandler, List.map_cons, arrJoin]

/-- The configured platform list of the demo deployment. -/
def psDemo : List Str := [("backend").toList, ("frontend").toList]

/-- Witness for C7 with platforms backend and frontend. -/
theorem get_all_contexts_correct_witness :
    (getAllContextsHandler demoEnv psDemo).2.count
        (RepoEvent.readDoc (("backend").toList)) = 1 ∧
    (getAllContextsHandler demoEnv psDemo).1
      = ctxHeading (("backend").toList) ++ demoEnv.doc (("backend").toList)
          ++ hrSep ++ (getAllContextsHandler demoEnv [("frontend").toList]).1 :=
  ⟨(get_all_contexts_correct demoEnv psDemo).2.2.1 (by decide)
      (("backend").toList) (by decide),
   (get_all_contexts_correct demoEnv psDemo).2.2.2.2 (("backend").toList)
      [("frontend").toList] rfl (by decide)⟩

/-- HTTP methods relevant to the Express app, with `put` as a
representative further verb for which no route is registered. -/
inductive HttpMethod where
  | get | post | delete | put
deriving DecidableEq

/-- A JSON-RPC error body: its code and message. -/
structure RpcError where
  code : Int
  message : Str
deriving DecidableEq

/-- An HTTP response: status code and optional JSON-RPC error body. -/
structure HttpResponse where
  status : Nat
  rpcError : Option RpcError
deriving DecidableEq

/-- The remote-procedure path. -/
def mcpPath : Str := ("/mcp").toList

/-- The health-check path. -/
def healthPath : Str := ("/health").toList

/-- The route table registered by `createApp` (app.ts), in registration
order: POST `/mcp` (handled by the MCP transport, whose response is the
parameter `postResp`), GET `/health`, and the explicit 405 handlers for
GET and DELETE on `/mcp`. No other route is registered. -/
def appRoutes (postResp : HttpResponse) :
    List (HttpMethod × Str × HttpResponse) :=
  [(HttpMethod.post, mcpPath, postResp),
   (HttpMethod.get, healthPath, ⟨200, none⟩),
   (HttpMethod.get, mcpPath,
     ⟨405, some ⟨-32000, ("Method not allowed. Use POST.").toList⟩⟩),
   (HttpMethod.delete, mcpPath,
     ⟨405, some ⟨-32000, ("Method not allowed.").toList⟩⟩)]

/-- Express dispatch: the first route matching method and path handles
the request; with no match Express falls through to its default 404
not-found response (which carries no JSON-RPC body). -/
def dispatch (postResp : HttpResponse) (m : HttpMethod) (p : Str) :
    HttpResponse :=
  match (appRoutes postResp).find?
      (fun r => decide (r.1 = m) && decide (r.2.1 = p)) with
  | some r => r.2.2
  | none => ⟨404, none⟩

/-- C8 counterexample: a PUT request to the remote-procedure path
matches no registered route and receives the framework's default 404 —
not HTTP 405 and not a JSON-RPC error body with code -32000. -/
theorem put_mcp_gets_404 :
    (dispatch ⟨200, none⟩ HttpMethod.put mcpPath).status = 404 ∧
    (dispatch ⟨200, none⟩ HttpMethod.put mcpPath).status ≠ 405 ∧
    (dispatch ⟨200, none⟩ HttpMethod.put mcpPath).rpcError = none := by
  decide

/-- C8 corrected: whatever the POST handler responds, GET and DELETE on
the remote-procedure path receive HTTP 405 with a JSON-RPC error body of
code -32000, while any other non-POST verb (PUT) falls through to the
framework's default 404 with no JSON-RPC body. -/
theorem non_post_mcp_responses (postResp : HttpResponse) :
    (dispatch postResp HttpMethod.get mcpPath).status = 405 ∧
    ((dispatch postResp HttpMethod.get mcpPath).rpcError.map RpcError.code)
      = some (-32000) ∧
    (dispatch postResp HttpMethod.delete mcpPath).status = 405 ∧
    ((dispatch postResp HttpMethod.delete mcpPath).rpcError.map RpcError.code)
      = some (-32000) ∧
    dispatch postResp HttpMethod.put mcpPath = ⟨404, none⟩ :=
  ⟨rfl, rfl, rfl, rfl, rfl⟩

/-- A simple-git client instance: its identity (a new one per
`simpleGit(...)` call) and its `maxConcurrentProcesses` setting. -/
structure GitClient where
  id : Nat
  maxConcurrentProcesses : Nat
deriving DecidableEq

/-- The instance created once by `repoTools` (repository.ts lines 8–12)
with `maxConcurrentProcesses: 1`; the source uses it only for `clone`. -/
def repoToolsClient : GitClient := ⟨0, 1⟩

/-- simple-git's default `maxConcurrentProcesses`, in effect when the
options object is omitted — as in the `simpleGit(dir)` of the pull
path. -/
def simpleGitDefaultMax : Nat := 5

/-- The fresh `simpleGit(dir)` instance created inside `ensureRepo` for
each pull (line 28); `callId` numbers the `ensureRepo` invocations, so
distinct concurrent calls hold distinct instances. -/
def pullClient (callId : Nat) : GitClient := ⟨callId + 1, simpleGitDefaultMax⟩

/-- The client that carries the git network operation of one
`ensureRepo` call: the shared weight-1 instance when the directory is
absent (clone), a fresh default-limit instance when it is present
(pull). -/
def ensureClient (present : Bool) (callId : Nat) : GitClient :=
  if present then pullClient callId else repoToolsClient

/-- Two git operations are serialized by a weight-1 semaphore precisely
when they are queued on the same client instance whose concurrent
process limit is 1. -/
def serializedPair (a b : GitClient) : Bool :=
  decide (a = b) && decide (a.maxConcurrentProcesses = 1)

/-- C9: with an existing working copy, two concurrent `ensureRepo` calls
pull on two distinct fresh `simpleGit(dir)` instances whose process
limit is the default 5, so their clone-or-pull sequences are not
serialized by any weight-1 semaphore; only the clone path runs on the
weight-1 instance configured in `repoTools`. -/
theorem concurrent_pulls_not_serialized :
    serializedPair (ensureClient true 0) (ensureClient true 1) = false ∧
    ensureClient true 0 ≠ ensureClient true 1 ∧
    (ensureClient true 0).maxConcurrentProcesses = 5 ∧
    (ensureClient true 0).maxConcurrentProcesses ≠ 1 ∧
    serializedPair (ensureClient false 0) (ensureClient false 1) = true := by
  decide

end BoilerplateMcp
